import Mathlib

/-!
Verification of the annotation-transformation pipeline in
`prerequisites/dataset_transformers/dataset_transformer_class.py`
(class `DatasetTransformer` plus the module-level box helpers).

Machine integers are modelled as `ℤ`/`ℕ`; the floating-point values produced
by true division are modelled as exact rationals (`ℚ`).  Python's
`ZeroDivisionError` in `compute_overlap` is modelled by an `Option` result
(`none` exactly when the Python code raises).
-/

/-! ## Box geometry (module-level helpers `compute_area`, `compute_overlap`) -/

/-- A bounding box, stored in the source as the list
`[y_min, y_max, x_min, x_max]`. -/
structure Box where
  ymin : ℤ
  ymax : ℤ
  xmin : ℤ
  xmax : ℤ
deriving DecidableEq

/-- `compute_area(bbox)`:
`max(0, bbox[3] - bbox[2] + 1) * max(0, bbox[1] - bbox[0] + 1)`. -/
def compute_area (b : Box) : ℤ :=
  max 0 (b.xmax - b.xmin + 1) * max 0 (b.ymax - b.ymin + 1)

/-- The `intersection_bbox` list built inside `compute_overlap`:
`[max(y_min), min(y_max), max(x_min), min(x_max)]`. -/
def intersectionBox (b0 b1 : Box) : Box :=
  ⟨max b0.ymin b1.ymin, min b0.ymax b1.ymax,
   max b0.xmin b1.xmin, min b0.xmax b1.xmax⟩

/-- `union_area` inside `compute_overlap`:
`compute_area(bbox0) + compute_area(bbox1) - intersection_area`. -/
def unionArea (b0 b1 : Box) : ℤ :=
  compute_area b0 + compute_area b1 - compute_area (intersectionBox b0 b1)

/-- `compute_overlap(bbox0, bbox1)`: `intersection_area / union_area`.
The Python source divides unconditionally; when `union_area` is `0` it raises
`ZeroDivisionError`, which is modelled here as `none`. -/
def compute_overlap (b0 b1 : Box) : Option ℚ :=
  if unionArea b0 b1 = 0 then none
  else some ((compute_area (intersectionBox b0 b1) : ℚ) / (unionArea b0 b1 : ℚ))

/-! ## Probability estimator (`compute_relationship_probabilities`) -/

/-- The fields of one pair-completed image record that
`compute_relationship_probabilities` reads: `split_id`,
`objects['ids']` and the parallel relation arrays. -/
structure ProbAnno where
  split_id : ℕ
  objIds : List ℕ
  relNames : List String
  relSubjIds : List ℕ
  relObjIds : List ℕ
  relIds : List ℕ
deriving DecidableEq

/-- The filter `anno['split_id'] == 0 and any(anno['relations']['names'])`.
Python's `any` over a list of strings is true exactly when some string is
non-empty (`'__background__'` is non-empty, hence truthy). -/
def probQualifies (a : ProbAnno) : Bool :=
  (a.split_id == 0) && (a.relNames.any fun s => decide (s ≠ ""))

/-- The rows of `np.stack((subj_ids, obj_ids, ids), axis=1)`:
the image's instance-level relation triplets, with multiplicity. -/
def instTriplets (a : ProbAnno) : List (ℕ × ℕ × ℕ) :=
  (List.range a.relSubjIds.length).map fun r =>
    (a.relSubjIds.getD r 0, a.relObjIds.getD r 0, a.relIds.getD r 0)

/-- Mapping an instance-level triplet to the incremented cell:
`(ids[subj_idx], ids[obj_idx], pred_id)` where `ids = objects['ids']`. -/
def tripletCell (a : ProbAnno) (t : ℕ × ℕ × ℕ) : ℕ × ℕ × ℕ :=
  (a.objIds.getD t.1 0, a.objIds.getD t.2.1 0, t.2.2)

/-- The set of matrix cells one image increments.  `np.unique(..., axis=0)`
deduplicates the instance-level triplet rows, and NumPy's buffered fancy
`+= 1` writes each distinct target cell once even when several distinct
instance triplets map to the same `(class, class, predicate)` cell. -/
def targetCells (a : ProbAnno) : List (ℕ × ℕ × ℕ) :=
  ((instTriplets a).dedup).map (tripletCell a)

/-- The body of the accumulation loop for one image `anno`. -/
def probUpdate (M : ℕ → ℕ → ℕ → ℚ) (a : ProbAnno) : ℕ → ℕ → ℕ → ℚ :=
  if probQualifies a then
    fun i j k => if (i, j, k) ∈ targetCells a then M i j k + 1 else M i j k
  else M

/-- The accumulation phase of `compute_relationship_probabilities`:
`prob_matrix = np.ones(...)` followed by the loop over `annos`. -/
def probCounts (annos : List ProbAnno) : ℕ → ℕ → ℕ → ℚ :=
  annos.foldl probUpdate fun _ _ _ => 1

/-- The normalization `prob_matrix /= prob_matrix.sum(2)[:, :, None]` and the
resulting table entry `P[i, j, k]`, with `nPred = len(predicates)`. -/
def probMatrix (annos : List ProbAnno) (nPred : ℕ) (i j k : ℕ) : ℚ :=
  probCounts annos i j k / ∑ m ∈ Finset.range nPred, probCounts annos i j m

/-- Cell-wise characterization of the accumulation loop: the final count is
the Laplace prior `1` plus the number of qualifying images whose target-cell
set contains the cell. -/
theorem probCounts_cell (annos : List ProbAnno) (i j k : ℕ) :
    probCounts annos i j k =
      1 + (annos.countP fun a =>
        probQualifies a && decide ((i, j, k) ∈ targetCells a)) := by
  suffices h : ∀ M : ℕ → ℕ → ℕ → ℚ,
      (annos.foldl probUpdate M) i j k =
        M i j k + (annos.countP fun a =>
          probQualifies a && decide ((i, j, k) ∈ targetCells a)) by
    simpa using h fun _ _ _ => 1
  induction annos with
  | nil => intro M; simp
  | cons a t ih =>
      intro M
      rw [List.foldl_cons, ih, List.countP_cons]
      unfold probUpdate
      by_cases hq : probQualifies a
      · by_cases hm : (i, j, k) ∈ targetCells a
        · simp [hq, hm]; ring
        · simp [hq, hm]
      · simp [hq]

/-- Every cell of the accumulated count matrix is at least `1`. -/
theorem probCounts_ge_one (annos : List ProbAnno) (i j k : ℕ) :
    (1 : ℚ) ≤ probCounts annos i j k := by
  rw [probCounts_cell]
  have : (0 : ℚ) ≤ (annos.countP fun a =>
      probQualifies a && decide ((i, j, k) ∈ targetCells a)) := by positivity
  linarith

/-- C5: for every subject-class id and object-class id, the probability table
returned by `compute_relationship_probabilities` sums to exactly `1` over the
predicate axis (so certainly within `1e-9`), and the per-row division is
well-defined: since every cell is initialized to `1`, the pre-normalization
row sum is at least the predicate-vocabulary size. -/
theorem probMatrix_row_sum (annos : List ProbAnno) (nPred : ℕ)
    (hP : 0 < nPred) (i j : ℕ) :
    (nPred : ℚ) ≤ (∑ m ∈ Finset.range nPred, probCounts annos i j m) ∧
    (∑ k ∈ Finset.range nPred, probMatrix annos nPred i j k) = 1 := by
  have hbound : (nPred : ℚ) ≤ ∑ m ∈ Finset.range nPred, probCounts annos i j m := by
    calc (nPred : ℚ) = ∑ _m ∈ Finset.range nPred, (1 : ℚ) := by simp
    _ ≤ ∑ m ∈ Finset.range nPred, probCounts annos i j m :=
        Finset.sum_le_sum fun m _ => probCounts_ge_one annos i j m
  have hpos : (0 : ℚ) < ∑ m ∈ Finset.range nPred, probCounts annos i j m := by
    have : (0 : ℚ) < (nPred : ℚ) := by exact_mod_cast hP
    linarith
  refine ⟨hbound, ?_⟩
  unfold probMatrix
  rw [← Finset.sum_div]
  exact div_self (ne_of_gt hpos)

/-- Witness for `probMatrix_row_sum` at `annos = []`, `nPred = 2`,
`i = j = 0`. -/
theorem probMatrix_row_sum_witness :
    0 < 2 ∧
    ((2 : ℚ) ≤ (∑ m ∈ Finset.range 2, probCounts [] 0 0 m) ∧
      (∑ k ∈ Finset.range 2, probMatrix [] 2 0 0 k) = 1) :=
  ⟨by decide, probMatrix_row_sum [] 2 (by decide) 0 0⟩

/-- C6 (amended): the accumulation increments cells only for images with
`split_id = 0` whose relation-name list contains a non-empty string, and for
each such image each distinct observed `(subject-class, object-class,
predicate-id)` cell is incremented by exactly `1`, regardless of how many
instance-level triplets of the image map to it: the per-image contribution to
cell `(i,j,k)` is `1` exactly when some (possibly repeated) relation of the
image observes that cell. -/
theorem probCounts_increments (annos : List ProbAnno) (i j k : ℕ) :
    probCounts annos i j k =
      1 + (annos.countP fun a =>
        probQualifies a &&
          decide ((i, j, k) ∈ (instTriplets a).map (tripletCell a))) ∧
    (∀ a : ProbAnno, probQualifies a = true → a.split_id = 0) := by
  constructor
  · rw [probCounts_cell]
    congr 1
    norm_cast
    apply List.countP_congr
    intro a _
    have hmem : ((i, j, k) ∈ targetCells a) ↔
        ((i, j, k) ∈ (instTriplets a).map (tripletCell a)) := by
      unfold targetCells
      constructor
      · intro h
        rcases List.mem_map.mp h with ⟨t, ht, hteq⟩
        exact List.mem_map.mpr ⟨t, List.mem_dedup.mp ht, hteq⟩
      · intro h
        rcases List.mem_map.mp h with ⟨t, ht, hteq⟩
        exact List.mem_map.mpr ⟨t, List.mem_dedup.mpr ht, hteq⟩
    by_cases hq : probQualifies a
    · simp [hq, hmem]
    · simp [hq]
  · intro a ha
    unfold probQualifies at ha
    have h2 := (Bool.and_eq_true _ _).mp ha
    simpa using h2.1

/-- A concrete training image all of whose relations are background
relations (as produced by Pair Completion for a 2-object image with no
annotated predicate). -/
def bgOnlyAnno : ProbAnno :=
  { split_id := 0
    objIds := [2, 3]
    relNames := ["__background__", "__background__"]
    relSubjIds := [0, 1]
    relObjIds := [1, 0]
    relIds := [5, 5] }

/-- Counterexample to C6 as stated: `bgOnlyAnno` is a training image with no
non-background relation, yet processing it increments cell `(2, 3, 5)` from
the prior `1` to `2`.  The code's guard `any(names)` accepts the truthy
string `'__background__'`; it does not require a non-background relation. -/
theorem probCounts_background_increments :
    bgOnlyAnno.split_id = 0 ∧
    (∀ nm ∈ bgOnlyAnno.relNames, nm = "__background__") ∧
    probCounts [bgOnlyAnno] 2 3 5 = 2 := by
  refine ⟨rfl, by decide, ?_⟩
  show List.foldl probUpdate (fun _ _ _ => (1 : ℚ)) [bgOnlyAnno] 2 3 5 = 2
  norm_num [probUpdate, probQualifies, bgOnlyAnno, targetCells, instTriplets,
    tripletCell, List.range_succ, List.dedup_cons_of_not_mem]
  rw [if_neg (by decide)]
  norm_num

/-- A degenerate box (`[0, -1, 0, -1]`, i.e. `y_max < y_min` and
`x_max < x_min`) whose computed area is `0`. -/
def degenerateBox : Box := ⟨0, -1, 0, -1⟩

/-- C2 evidence: on two zero-area boxes the union area is `0` and
`compute_overlap` hits the unguarded division `intersection_area /
union_area`: the Python code raises `ZeroDivisionError` (modelled as `none`)
instead of returning overlap `0` as the specification requires. -/
theorem compute_overlap_zero_union_raises :
    compute_area degenerateBox = 0 ∧
    unionArea degenerateBox degenerateBox = 0 ∧
    compute_overlap degenerateBox degenerateBox = none := by
  refine ⟨by decide, by decide, ?_⟩
  unfold compute_overlap
  rw [if_pos (by decide)]

/-! ## Synonym closure (`_densify_mat`)

`compute_class_merging` allocates, per observed class pair, the matrix
`np.eye(len(predicates))`, sets co-occurrence cells to `1`, and then calls
`_densify_mat`, which iterates `mat = np.minimum(mat + np.matmul(mat.T, mat), 1)`
until the matrix stops changing.  All matrices involved are 0/1-valued, so
entries are modelled as `ℕ`. -/

/-- One iteration of the `_densify_mat` loop body:
`np.minimum(mat + np.matmul(mat.T, mat), 1)`; note
`np.matmul(mat.T, mat)[i, j] = ∑ k, mat[k, i] * mat[k, j]`. -/
def dmStep (n : ℕ) (M : Fin n → Fin n → ℕ) : Fin n → Fin n → ℕ :=
  fun i j => min (M i j + ∑ k : Fin n, M k i * M k j) 1

/-- The `while (mat != old_mat).any()` loop of `_densify_mat`, with explicit
fuel: it returns the first iterate that is a fixed point of `dmStep`, or runs
out of fuel. -/
def densifyAux (n : ℕ) : ℕ → (Fin n → Fin n → ℕ) → (Fin n → Fin n → ℕ)
  | 0, M => M
  | fuel + 1, M => if dmStep n M = M then M else densifyAux n fuel (dmStep n M)

/-- `_densify_mat(mat)`: the loop runs to a fixed point; on 0/1 matrices at
most `n * n` strict iterations are possible, so fuel `n * n + 1` reproduces
the unbounded Python loop exactly. -/
def densify_mat (n : ℕ) (M : Fin n → Fin n → ℕ) : Fin n → Fin n → ℕ :=
  densifyAux n (n * n + 1) M

/-- The number of ones of a 0/1 matrix (the termination measure). -/
def dmOnes (n : ℕ) (M : Fin n → Fin n → ℕ) : ℕ :=
  ∑ p : Fin n × Fin n, M p.1 p.2

/-- An iteration keeps entries bounded by `1`. -/
theorem dmStep_le_one (n : ℕ) (M : Fin n → Fin n → ℕ) (i j : Fin n) :
    dmStep n M i j ≤ 1 :=
  min_le_right _ _

/-- An iteration is pointwise monotone on 0/1 matrices. -/
theorem le_dmStep (n : ℕ) (M : Fin n → Fin n → ℕ)
    (h01 : ∀ i j, M i j ≤ 1) (i j : Fin n) :
    M i j ≤ dmStep n M i j :=
  le_min (Nat.le_add_right _ _) (h01 i j)

/-- A non-fixed iteration strictly increases the number of ones. -/
theorem dmOnes_lt_of_step_ne (n : ℕ) (M : Fin n → Fin n → ℕ)
    (h01 : ∀ i j, M i j ≤ 1) (hne : dmStep n M ≠ M) :
    dmOnes n M < dmOnes n (dmStep n M) := by
  apply Finset.sum_lt_sum
  · intro p _
    exact le_dmStep n M h01 p.1 p.2
  · by_contra hall
    push_neg at hall
    apply hne
    funext i j
    have hle := le_dmStep n M h01 i j
    have hge := hall (i, j) (Finset.mem_univ _)
    exact le_antisymm hge hle

/-- The number of ones of a 0/1 matrix is at most `n * n`. -/
theorem dmOnes_le (n : ℕ) (M : Fin n → Fin n → ℕ)
    (h01 : ∀ i j, M i j ≤ 1) : dmOnes n M ≤ n * n := by
  calc dmOnes n M ≤ ∑ _p : Fin n × Fin n, 1 :=
        Finset.sum_le_sum fun p _ => h01 p.1 p.2
  _ = n * n := by simp [Fintype.card_prod]

/-- With fuel at least `n * n + 1 - dmOnes M`, the loop reaches a fixed
point of `dmStep`. -/
theorem densifyAux_fixed (n : ℕ) :
    ∀ fuel : ℕ, ∀ M : Fin n → Fin n → ℕ, (∀ i j, M i j ≤ 1) →
      n * n + 1 - dmOnes n M ≤ fuel →
      dmStep n (densifyAux n fuel M) = densifyAux n fuel M := by
  intro fuel
  induction fuel with
  | zero =>
      intro M h01 hfuel
      exfalso
      have := dmOnes_le n M h01
      omega
  | succ f ih =>
      intro M h01 hfuel
      unfold densifyAux
      by_cases hfix : dmStep n M = M
      · rw [if_pos hfix]
        exact hfix
      · rw [if_neg hfix]
        apply ih
        · intro i j; exact dmStep_le_one n M i j
        · have hlt := dmOnes_lt_of_step_ne n M h01 hfix
          omega

/-- The loop result dominates the input pointwise (entries never decrease),
and stays 0/1. -/
theorem densifyAux_le (n : ℕ) :
    ∀ fuel : ℕ, ∀ M : Fin n → Fin n → ℕ, (∀ i j, M i j ≤ 1) →
      ∀ i j, M i j ≤ densifyAux n fuel M i j ∧ densifyAux n fuel M i j ≤ 1 := by
  intro fuel
  induction fuel with
  | zero => intro M h01 i j; exact ⟨le_refl _, h01 i j⟩
  | succ f ih =>
      intro M h01 i j
      unfold densifyAux
      by_cases hfix : dmStep n M = M
      · rw [if_pos hfix]; exact ⟨le_refl _, h01 i j⟩
      · rw [if_neg hfix]
        have h01s : ∀ i j, dmStep n M i j ≤ 1 := fun i j => dmStep_le_one n M i j
        rcases ih (dmStep n M) h01s i j with ⟨h1, h2⟩
        exact ⟨le_trans (le_dmStep n M h01 i j) h1, h2⟩

/-- C4: `_densify_mat` terminates on every 0/1 matrix: the loop's entries are
pointwise non-decreasing and bounded by `1`, and the iterate produced with
fuel `n * n + 1` is a genuine fixed point of the loop body, i.e. the
`while (mat != old_mat).any()` loop exits after finitely many iterations with
exactly this matrix. -/
theorem densify_mat_terminates (n : ℕ) (M : Fin n → Fin n → ℕ)
    (h01 : ∀ i j, M i j ≤ 1) :
    dmStep n (densify_mat n M) = densify_mat n M ∧
    ∀ i j, M i j ≤ densify_mat n M i j ∧ densify_mat n M i j ≤ 1 := by
  constructor
  · exact densifyAux_fixed n (n * n + 1) M h01 (Nat.sub_le _ _)
  · exact fun i j => densifyAux_le n (n * n + 1) M h01 i j

/-- The identity matrix on `Fin 2`, the initial value `np.eye(2)`. -/
def eyeTwo : Fin 2 → Fin 2 → ℕ := fun i j => if i = j then 1 else 0

/-- Witness for `densify_mat_terminates` on the concrete matrix `eyeTwo`. -/
theorem densify_mat_terminates_witness :
    (∀ i j, eyeTwo i j ≤ 1) ∧
    (dmStep 2 (densify_mat 2 eyeTwo) = densify_mat 2 eyeTwo ∧
      ∀ i j, eyeTwo i j ≤ densify_mat 2 eyeTwo i j ∧ densify_mat 2 eyeTwo i j ≤ 1) :=
  ⟨by decide, densify_mat_terminates 2 eyeTwo (by decide)⟩

/-- In a fixed point of the loop body, a common witness row forces the cell:
if row `k0` has ones in columns `i` and `j`, then cell `(i, j)` is one. -/
theorem dmFixed_cell (n : ℕ) (D : Fin n → Fin n → ℕ)
    (hfix : dmStep n D = D) (i j k0 : Fin n)
    (h1 : D k0 i = 1) (h2 : D k0 j = 1) : D i j = 1 := by
  have heq := congrFun (congrFun hfix i) j
  unfold dmStep at heq
  have hterm : (1 : ℕ) ≤ ∑ k : Fin n, D k i * D k j := by
    have : D k0 i * D k0 j ≤ ∑ k : Fin n, D k i * D k j :=
      @Finset.single_le_sum (Fin n) ℕ _ (fun k => D k i * D k j) Finset.univ
        (fun k _ => Nat.zero_le _) k0 (Finset.mem_univ k0)
    rw [h1, h2] at this
    simpa using this
  have hmin : min (D i j + ∑ k : Fin n, D k i * D k j) 1 = 1 :=
    min_eq_right (by omega)
  rw [hmin] at heq
  exact heq.symm

/-- C3: on every 0/1 matrix carrying the identity on its diagonal (as every
per-class-pair adjacency matrix does, being initialized to `np.eye`), the
matrix returned by `_densify_mat` is symmetric and transitive. -/
theorem densify_mat_symm_trans (n : ℕ) (M : Fin n → Fin n → ℕ)
    (h01 : ∀ i j, M i j ≤ 1) (hdiag : ∀ i, M i i = 1) :
    (∀ i j, densify_mat n M i j = 1 → densify_mat n M j i = 1) ∧
    (∀ i j k, densify_mat n M i j = 1 → densify_mat n M j k = 1 →
      densify_mat n M i k = 1) := by
  have hfix : dmStep n (densify_mat n M) = densify_mat n M :=
    densifyAux_fixed n (n * n + 1) M h01 (Nat.sub_le _ _)
  have hDdiag : ∀ i, densify_mat n M i i = 1 := by
    intro i
    have hle := densifyAux_le n (n * n + 1) M h01 i i
    have hM := hdiag i
    unfold densify_mat
    omega
  have hsymm : ∀ i j, densify_mat n M i j = 1 → densify_mat n M j i = 1 := by
    intro i j hij
    exact dmFixed_cell n (densify_mat n M) hfix j i i hij (hDdiag i)
  refine ⟨hsymm, ?_⟩
  intro i j k hij hjk
  exact dmFixed_cell n (densify_mat n M) hfix i k j (hsymm i j hij) hjk

/-- A concrete 0/1 matrix with identity diagonal and one asymmetric
co-occurrence entry. -/
def coMatTwo : Fin 2 → Fin 2 → ℕ :=
  fun i j => if i = j ∨ (i = 0 ∧ j = 1) then 1 else 0

/-- Witness for `densify_mat_symm_trans` on the concrete matrix `coMatTwo`. -/
theorem densify_mat_symm_trans_witness :
    ((∀ i j, coMatTwo i j ≤ 1) ∧ (∀ i, coMatTwo i i = 1)) ∧
    ((∀ i j, densify_mat 2 coMatTwo i j = 1 → densify_mat 2 coMatTwo j i = 1) ∧
      (∀ i j k, densify_mat 2 coMatTwo i j = 1 → densify_mat 2 coMatTwo j k = 1 →
        densify_mat 2 coMatTwo i k = 1)) :=
  ⟨⟨by decide, by decide⟩, densify_mat_symm_trans 2 coMatTwo (by decide) (by decide)⟩

/-! ## Pair Completion (`create_pred_cls_json`)

The dict comprehension enumerates `(s, o)` with `s` outer, `o` inner, both
over `range(len(objects['ids']))`, skipping `s == o`; dict insertion order is
preserved, relations append to (and possibly extend) that key order, and the
result is flattened into four parallel arrays. -/

/-- The `objects` sub-record of one image annotation. -/
structure Objects where
  ids : List ℕ
  names : List String
  boxes : List Box
deriving DecidableEq

/-- The `relations` sub-record: four parallel arrays. -/
structure Relations where
  ids : List ℕ
  names : List String
  subj_ids : List ℕ
  obj_ids : List ℕ
deriving DecidableEq

/-- One image annotation in the `preddet`/`predcls` format. -/
structure Anno where
  filename : String
  split_id : ℕ
  objects : Objects
  relations : Relations
deriving DecidableEq

/-- The relation rows read by the loop
`for rel in range(len(anno['relations']['subj_ids']))`:
`(subj_id, obj_id, name, pred_id)` per index. -/
def relTriples (rels : Relations) : List (ℕ × ℕ × String × ℕ) :=
  (List.range rels.subj_ids.length).map fun r =>
    (rels.subj_ids.getD r 0, rels.obj_ids.getD r 0,
     rels.names.getD r "", rels.ids.getD r 0)

/-- The initial dict keys `{(s, o) for s in range(n) for o in range(n)
if s != o}`, in insertion order. -/
def initPairs (n : ℕ) : List (ℕ × ℕ) :=
  (List.range n).flatMap fun s =>
    ((List.range n).filter fun o => decide (s ≠ o)).map fun o => (s, o)

/-- Processing one relation row against the key order: the code adds the key
`(subj_id, obj_id)` at the end when it is missing
(`if (subj_id, obj_id) not in pairs`). -/
def pairKeyStep (ks : List (ℕ × ℕ)) (t : ℕ × ℕ × String × ℕ) : List (ℕ × ℕ) :=
  if (t.1, t.2.1) ∈ ks then ks else ks ++ [(t.1, t.2.1)]

/-- The final dict key order after all relation rows are processed. -/
def pairKeys (n : ℕ) (ts : List (ℕ × ℕ × String × ℕ)) : List (ℕ × ℕ) :=
  ts.foldl pairKeyStep (initPairs n)

/-- The `(name, pred_id)` entries appended for key `key`, in relation order. -/
def pairEntries (ts : List (ℕ × ℕ × String × ℕ)) (key : ℕ × ℕ) :
    List (String × ℕ) :=
  (ts.filter fun t => decide ((t.1, t.2.1) = key)).map fun t => (t.2.2.1, t.2.2.2)

/-- The second comprehension: `rels if any(rels) else
[('__background__', len(predicates) - 1)]` (a list of non-empty tuples is
truthy exactly when it is non-empty). -/
def groupFor (nPred : ℕ) (ts : List (ℕ × ℕ × String × ℕ)) (key : ℕ × ℕ) :
    List (String × ℕ) :=
  if pairEntries ts key = [] then [("__background__", nPred - 1)]
  else pairEntries ts key

/-- The flattened `np.array` rows `(subj_id, obj_id, name, pred_id)`. -/
def flatQuads (n nPred : ℕ) (ts : List (ℕ × ℕ × String × ℕ)) :
    List (ℕ × ℕ × String × ℕ) :=
  (pairKeys n ts).flatMap fun key =>
    (groupFor nPred ts key).map fun e => (key.1, key.2, e.1, e.2)

/-- `create_pred_cls_json` on one image record: when the flattened array is
non-empty (`if pairs.size:`) the `relations` field is rewritten into the four
parallel column lists; otherwise the record is left untouched. -/
def create_pred_cls_json (predicates : List String) (a : Anno) : Anno :=
  let flat := flatQuads a.objects.ids.length predicates.length
    (relTriples a.relations)
  if flat = [] then a
  else
    { a with relations :=
        { subj_ids := flat.map fun t => t.1
          obj_ids := flat.map fun t => t.2.1
          names := flat.map fun t => t.2.2.1
          ids := flat.map fun t => t.2.2.2 } }

/-- Reassembling the four parallel arrays of a `Relations` record into rows. -/
def quadOf (r : Relations) : List (ℕ × ℕ × String × ℕ) :=
  r.subj_ids.zip (r.obj_ids.zip (r.names.zip r.ids))

/-- Membership in the initial key order. -/
theorem mem_initPairs (n s o : ℕ) :
    ((s, o) ∈ initPairs n) ↔ (s < n ∧ o < n ∧ s ≠ o) := by
  unfold initPairs
  simp only [List.mem_flatMap, List.mem_map, List.mem_filter, List.mem_range,
    Prod.mk.injEq, decide_eq_true_eq]
  constructor
  · rintro ⟨s0, hs0, o0, ⟨ho0, hne⟩, rfl, rfl⟩
    exact ⟨hs0, ho0, hne⟩
  · rintro ⟨hs, ho, hne⟩
    exact ⟨s, hs, o, ⟨ho, hne⟩, rfl, rfl⟩

/-- The initial key order has no duplicate keys. -/
theorem nodup_initPairs (n : ℕ) : (initPairs n).Nodup := by
  unfold initPairs
  rw [List.nodup_flatMap]
  constructor
  · intro s _
    apply List.Nodup.map
    · intro a b h
      simpa using congrArg Prod.snd h
    · exact (List.nodup_range n).filter _
  · have hnd : List.Pairwise Ne (List.range n) := List.nodup_range n
    apply hnd.imp
    intro a b hab
    intro q hqa hqb
    rcases List.mem_map.mp hqa with ⟨o1, _, rfl⟩
    rcases List.mem_map.mp hqb with ⟨o2, _, h2⟩
    exact hab (congrArg Prod.fst h2.symm)

/-- The initial key order has `n * (n - 1)` keys. -/
theorem length_initPairs (n : ℕ) : (initPairs n).length = n * (n - 1) := by
  unfold initPairs
  rw [List.length_flatMap]
  have hfl : ∀ s ∈ List.range n,
      ((((List.range n).filter fun o => decide (s ≠ o)).map
        fun o => ((s, o) : ℕ × ℕ)).length) = n - 1 := by
    intro s hs
    rw [List.length_map]
    have h1 : ((List.range n).filter fun o => decide (s ≠ o)) =
        (List.range n).filter fun o => o != s := by
      apply List.filter_congr
      intro o _
      by_cases h : s = o
      · simp [h]
      · simp [h, Ne.symm h]
    rw [h1, ← List.Nodup.erase_eq_filter (List.nodup_range n) s,
      List.length_erase_of_mem hs, List.length_range]
  have hmap : List.map (List.length ∘ fun s =>
      ((List.range n).filter fun o => decide (s ≠ o)).map
        fun o => ((s, o) : ℕ × ℕ)) (List.range n) =
      List.map (fun _ => n - 1) (List.range n) := by
    apply List.map_congr_left
    intro s hs
    simpa [Function.comp] using hfl s hs
  rw [hmap]
  simp [List.map_const', List.sum_replicate, smul_eq_mul, mul_comm]

/-- The key order only ever grows at the end. -/
theorem foldl_pairKeyStep_extends (ts : List (ℕ × ℕ × String × ℕ)) :
    ∀ ks : List (ℕ × ℕ), ks <+: ts.foldl pairKeyStep ks := by
  induction ts with
  | nil => intro ks; exact List.prefix_refl ks
  | cons t ts ih =>
      intro ks
      rw [List.foldl_cons]
      refine List.IsPrefix.trans ?_ (ih (pairKeyStep ks t))
      unfold pairKeyStep
      by_cases h : (t.1, t.2.1) ∈ ks
      · rw [if_pos h]
      · rw [if_neg h]; exact List.prefix_append ks _

/-- Every processed relation row's key ends up in the key order. -/
theorem mem_foldl_pairKeyStep (ts : List (ℕ × ℕ × String × ℕ)) :
    ∀ ks : List (ℕ × ℕ), ∀ t ∈ ts, (t.1, t.2.1) ∈ ts.foldl pairKeyStep ks := by
  induction ts with
  | nil => intro ks t ht; cases ht
  | cons u ts ih =>
      intro ks t ht
      rw [List.foldl_cons]
      rcases List.mem_cons.mp ht with rfl | hmem
      · have hin : (t.1, t.2.1) ∈ pairKeyStep ks t := by
          unfold pairKeyStep
          by_cases h : (t.1, t.2.1) ∈ ks
          · rw [if_pos h]; exact h
          · rw [if_neg h]; exact List.mem_append_right ks (List.mem_singleton_self _)
        exact (foldl_pairKeyStep_extends ts (pairKeyStep ks t)).subset hin
      · exact ih (pairKeyStep ks u) t hmem

/-- When every relation row's key is already present, the fold is a no-op. -/
theorem foldl_pairKeyStep_id (ts : List (ℕ × ℕ × String × ℕ)) :
    ∀ ks : List (ℕ × ℕ), (∀ t ∈ ts, (t.1, t.2.1) ∈ ks) →
      ts.foldl pairKeyStep ks = ks := by
  induction ts with
  | nil => intro ks _; rfl
  | cons t ts ih =>
      intro ks h
      rw [List.foldl_cons]
      have ht : pairKeyStep ks t = ks := by
        unfold pairKeyStep
        rw [if_pos (h t (List.mem_cons_self t ts))]
      rw [ht]
      exact ih ks fun u hu => h u (List.mem_cons_of_mem t hu)

/-- Under well-formed relation indices the key order is exactly the initial
complete enumeration. -/
theorem pairKeys_eq_initPairs (n : ℕ) (ts : List (ℕ × ℕ × String × ℕ))
    (hwf : ∀ t ∈ ts, t.1 < n ∧ t.2.1 < n ∧ t.1 ≠ t.2.1) :
    pairKeys n ts = initPairs n := by
  apply foldl_pairKeyStep_id
  intro t ht
  rcases hwf t ht with ⟨h1, h2, h3⟩
  exact (mem_initPairs n t.1 t.2.1).mpr ⟨h1, h2, h3⟩

/-- Pair groups are never empty. -/
theorem groupFor_ne_nil (nPred : ℕ) (ts : List (ℕ × ℕ × String × ℕ))
    (key : ℕ × ℕ) : groupFor nPred ts key ≠ [] := by
  unfold groupFor
  by_cases h : pairEntries ts key = []
  · rw [if_pos h]; simp
  · rw [if_neg h]; exact h

/-- Membership of a subject/object pair in the flattened rows is membership
in the key order. -/
theorem flatQuads_pair_mem (n nPred : ℕ) (ts : List (ℕ × ℕ × String × ℕ))
    (s o : ℕ) :
    (∃ t ∈ flatQuads n nPred ts, t.1 = s ∧ t.2.1 = o) ↔
      (s, o) ∈ pairKeys n ts := by
  unfold flatQuads
  constructor
  · rintro ⟨t, ht, hs, ho⟩
    rcases List.mem_flatMap.mp ht with ⟨key, hkey, hmem⟩
    rcases List.mem_map.mp hmem with ⟨e, _, rfl⟩
    simp only at hs ho
    rw [← hs, ← ho]
    exact hkey
  · intro hkey
    rcases List.exists_mem_of_ne_nil _ (groupFor_ne_nil nPred ts (s, o)) with ⟨e, he⟩
    refine ⟨(s, o, e.1, e.2), ?_, rfl, rfl⟩
    exact List.mem_flatMap.mpr ⟨(s, o), hkey, List.mem_map_of_mem _ he⟩

/-- Filtering the flattened rows for one key picks out exactly that key's
group, provided the key order has no duplicates. -/
theorem filter_flatMap_group (nPred : ℕ) (ts : List (ℕ × ℕ × String × ℕ))
    (s o : ℕ) :
    ∀ l : List (ℕ × ℕ), l.Nodup → (s, o) ∈ l →
      ((l.flatMap fun key => (groupFor nPred ts key).map
          fun e => (key.1, key.2, e.1, e.2)).filter
        fun t => decide (t.1 = s ∧ t.2.1 = o)) =
      (groupFor nPred ts (s, o)).map fun e => (s, o, e.1, e.2) := by
  have hnil : ∀ l : List (ℕ × ℕ), (s, o) ∉ l →
      ((l.flatMap fun key => (groupFor nPred ts key).map
          fun e => (key.1, key.2, e.1, e.2)).filter
        fun t => decide (t.1 = s ∧ t.2.1 = o)) = [] := by
    intro l hnot
    rw [List.filter_eq_nil_iff]
    intro q hq
    rcases List.mem_flatMap.mp hq with ⟨key, hkey, hmem⟩
    rcases List.mem_map.mp hmem with ⟨e, _, rfl⟩
    simp only [decide_eq_true_eq, not_and]
    intro h1 h2
    apply hnot
    have hks : key = (s, o) := by
      rw [← h1, ← h2]
    rw [← hks]
    exact hkey
  intro l
  induction l with
  | nil => intro _ hmem; cases hmem
  | cons k l ih =>
      intro hnd hmem
      rw [List.flatMap_cons, List.filter_append]
      rcases List.mem_cons.mp hmem with rfl | hmem2
      · have h2 : (s, o) ∉ l := (List.nodup_cons.mp hnd).1
        rw [hnil l h2]
        rw [List.filter_eq_self.mpr]
        · simp
        · intro q hq
          rcases List.mem_map.mp hq with ⟨e, _, rfl⟩
          simp
      · have hk : k ≠ (s, o) := by
          rintro rfl
          exact (List.nodup_cons.mp hnd).1 hmem2
        have h0 : ((groupFor nPred ts k).map
            (fun e => (k.1, k.2, e.1, e.2))).filter
              (fun t => decide (t.1 = s ∧ t.2.1 = o)) = [] := by
          rw [List.filter_eq_nil_iff]
          intro q hq
          rcases List.mem_map.mp hq with ⟨e, _, rfl⟩
          simp only [decide_eq_true_eq, not_and]
          intro h1 h2
          apply hk
          rw [← h1, ← h2]
        rw [h0, List.nil_append]
        exact ih (List.nodup_cons.mp hnd).2 hmem2

/-- Rebuilding rows from the four column lists recovers the rows. -/
theorem quadOf_columns (flat : List (ℕ × ℕ × String × ℕ)) :
    quadOf { ids := flat.map fun t => t.2.2.2, names := flat.map fun t => t.2.2.1,
             subj_ids := flat.map fun t => t.1, obj_ids := flat.map fun t => t.2.1 }
      = flat := by
  unfold quadOf
  induction flat with
  | nil => rfl
  | cons t l ih =>
      simp only [List.map_cons, List.zip_cons_cons, List.cons.injEq]
      exact ⟨trivial, ih⟩

/-- When the flattened array is empty, there were no relation rows and at
most one object. -/
theorem flatQuads_eq_nil (n nPred : ℕ) (ts : List (ℕ × ℕ × String × ℕ))
    (h : flatQuads n nPred ts = []) : ts = [] ∧ n ≤ 1 := by
  have hkeys : pairKeys n ts = [] := by
    rw [List.eq_nil_iff_forall_not_mem]
    intro key hkey
    unfold flatQuads at h
    have := List.flatMap_eq_nil_iff.mp h key hkey
    rcases List.map_eq_nil_iff.mp this with hg
    exact groupFor_ne_nil nPred ts key hg
  have hts : ts = [] := by
    rw [List.eq_nil_iff_forall_not_mem]
    intro t ht
    have := mem_foldl_pairKeyStep ts (initPairs n) t ht
    rw [show ts.foldl pairKeyStep (initPairs n) = pairKeys n ts from rfl,
      hkeys] at this
    cases this
  have hinit : initPairs n = [] := by
    have hpre : initPairs n <+: pairKeys n ts := foldl_pairKeyStep_extends ts _
    rw [hkeys] at hpre
    exact List.prefix_nil.mp hpre
  have hn : n ≤ 1 := by
    by_contra hlt
    push_neg at hlt
    have : ((0 : ℕ), (1 : ℕ)) ∈ initPairs n :=
      (mem_initPairs n 0 1).mpr ⟨by omega, by omega, by omega⟩
    rw [hinit] at this
    cases this
  exact ⟨hts, hn⟩

/-- C1: after Pair Completion (`create_pred_cls_json`) on an image whose
relation rows reference distinct in-range instance indices, the image's
Relation Set covers exactly the ordered pairs `(s, o)` of distinct instance
indices: a pair occurs among the rewritten rows iff `s < n`, `o < n`,
`s ≠ o`; there are exactly `n * (n - 1)` distinct pairs; and every pair that
carried no annotated predicate holds exactly one synthetic relation labeled
`'__background__'` with predicate id `len(predicates) - 1`. -/
theorem create_pred_cls_complete (predicates : List String) (a : Anno)
    (hwf : ∀ t ∈ relTriples a.relations,
      t.1 < a.objects.ids.length ∧ t.2.1 < a.objects.ids.length ∧ t.1 ≠ t.2.1) :
    (∀ s o : ℕ,
      (∃ t ∈ quadOf (create_pred_cls_json predicates a).relations,
          t.1 = s ∧ t.2.1 = o) ↔
        (s < a.objects.ids.length ∧ o < a.objects.ids.length ∧ s ≠ o)) ∧
    ((quadOf (create_pred_cls_json predicates a).relations).map
        (fun t => (t.1, t.2.1))).dedup.length =
      a.objects.ids.length * (a.objects.ids.length - 1) ∧
    (∀ s o : ℕ, s < a.objects.ids.length → o < a.objects.ids.length → s ≠ o →
      (∀ t ∈ relTriples a.relations, ¬(t.1 = s ∧ t.2.1 = o)) →
      (quadOf (create_pred_cls_json predicates a).relations).filter
          (fun t => decide (t.1 = s ∧ t.2.1 = o)) =
        [(s, o, "__background__", predicates.length - 1)]) := by
  by_cases hflat : flatQuads a.objects.ids.length predicates.length
      (relTriples a.relations) = []
  · obtain ⟨hts, hn⟩ := flatQuads_eq_nil _ _ _ hflat
    have hcr : create_pred_cls_json predicates a = a := by
      simp only [create_pred_cls_json]
      rw [if_pos hflat]
    have hlen : a.relations.subj_ids.length = 0 := by
      unfold relTriples at hts
      have hr := List.map_eq_nil_iff.mp hts
      exact List.range_eq_nil.mp hr
    have hsubj : a.relations.subj_ids = [] := List.length_eq_zero.mp hlen
    have hq : quadOf (create_pred_cls_json predicates a).relations = [] := by
      rw [hcr]
      unfold quadOf
      rw [hsubj]
      rfl
    refine ⟨?_, ?_, ?_⟩
    · intro s o
      rw [hq]
      constructor
      · rintro ⟨t, ht, _⟩
        cases ht
      · rintro ⟨hs, ho, hne⟩
        omega
    · rw [hq]
      have h01 : a.objects.ids.length = 0 ∨ a.objects.ids.length = 1 := by omega
      rcases h01 with h | h <;> rw [h] <;> rfl
    · intro s o hs ho hne _
      exfalso
      omega
  · have hkeys : pairKeys a.objects.ids.length (relTriples a.relations) =
        initPairs a.objects.ids.length :=
      pairKeys_eq_initPairs _ _ hwf
    have hq : quadOf (create_pred_cls_json predicates a).relations =
        flatQuads a.objects.ids.length predicates.length
          (relTriples a.relations) := by
      simp only [create_pred_cls_json]
      rw [if_neg hflat]
      exact quadOf_columns _
    refine ⟨?_, ?_, ?_⟩
    · intro s o
      rw [hq]
      refine (flatQuads_pair_mem _ _ _ s o).trans ?_
      rw [hkeys]
      exact mem_initPairs _ s o
    · rw [hq]
      have hmemP : ∀ z : ℕ × ℕ,
          z ∈ ((flatQuads a.objects.ids.length predicates.length
              (relTriples a.relations)).map fun t => (t.1, t.2.1)).dedup ↔
            z ∈ initPairs a.objects.ids.length := by
        intro z
        rw [List.mem_dedup, List.mem_map]
        constructor
        · rintro ⟨t, ht, rfl⟩
          have hm := (flatQuads_pair_mem _ _ _ t.1 t.2.1).mp ⟨t, ht, rfl, rfl⟩
          rw [hkeys] at hm
          exact hm
        · intro hz
          have hzk : (z.1, z.2) ∈ pairKeys a.objects.ids.length
              (relTriples a.relations) := by
            rw [hkeys]
            exact hz
          rcases (flatQuads_pair_mem _ _ _ z.1 z.2).mpr hzk with ⟨t, ht, h1, h2⟩
          refine ⟨t, ht, ?_⟩
          rw [h1, h2]
      have hperm := (List.perm_ext_iff_of_nodup (List.nodup_dedup _)
        (nodup_initPairs a.objects.ids.length)).mpr hmemP
      rw [hperm.length_eq, length_initPairs]
    · intro s o hs ho hne hnone
      rw [hq]
      unfold flatQuads
      rw [filter_flatMap_group predicates.length (relTriples a.relations) s o
        (pairKeys a.objects.ids.length (relTriples a.relations))
        (by rw [hkeys]; exact nodup_initPairs _)
        (by rw [hkeys]; exact (mem_initPairs _ s o).mpr ⟨hs, ho, hne⟩)]
      have hemp : pairEntries (relTriples a.relations) (s, o) = [] := by
        unfold pairEntries
        rw [List.map_eq_nil_iff, List.filter_eq_nil_iff]
        intro t ht
        simp only [decide_eq_true_eq]
        intro hpair
        apply hnone t ht
        rw [Prod.ext_iff] at hpair
        exact ⟨hpair.1, hpair.2⟩
      unfold groupFor
      rw [if_pos hemp]
      rfl

/-- A concrete two-object image with a single annotated relation. -/
def pairAnno : Anno :=
  { filename := "im1.jpg"
    split_id := 0
    objects := { ids := [3, 7], names := ["car", "road"],
                 boxes := [⟨0, 2, 0, 2⟩, ⟨0, 2, 1, 3⟩] }
    relations := { ids := [0], names := ["on"], subj_ids := [0], obj_ids := [1] } }

/-- Witness for `create_pred_cls_complete` on `pairAnno` with predicate
vocabulary `["on", "__background__"]`. -/
theorem create_pred_cls_complete_witness :
    (∀ t ∈ relTriples pairAnno.relations,
      t.1 < pairAnno.objects.ids.length ∧
      t.2.1 < pairAnno.objects.ids.length ∧ t.1 ≠ t.2.1) ∧
    ((∀ s o : ℕ,
      (∃ t ∈ quadOf (create_pred_cls_json ["on", "__background__"]
          pairAnno).relations, t.1 = s ∧ t.2.1 = o) ↔
        (s < pairAnno.objects.ids.length ∧
          o < pairAnno.objects.ids.length ∧ s ≠ o)) ∧
    ((quadOf (create_pred_cls_json ["on", "__background__"]
        pairAnno).relations).map (fun t => (t.1, t.2.1))).dedup.length =
      pairAnno.objects.ids.length * (pairAnno.objects.ids.length - 1) ∧
    (∀ s o : ℕ, s < pairAnno.objects.ids.length →
      o < pairAnno.objects.ids.length → s ≠ o →
      (∀ t ∈ relTriples pairAnno.relations, ¬(t.1 = s ∧ t.2.1 = o)) →
      (quadOf (create_pred_cls_json ["on", "__background__"]
          pairAnno).relations).filter
          (fun t => decide (t.1 = s ∧ t.2.1 = o)) =
        [(s, o, "__background__", (["on", "__background__"] : List String).length - 1)])) :=
  ⟨by decide, create_pred_cls_complete ["on", "__background__"] pairAnno (by decide)⟩

/-- C10: an image with fewer than two objects and an empty relation list is
left exactly as it was by `create_pred_cls_json`: the pair dict is empty, the
flattened `np.array` has `size == 0`, and the `relations` field is not
rewritten (in particular no background relation is inserted). -/
theorem create_pred_cls_frame (predicates : List String) (a : Anno)
    (hobj : a.objects.ids.length ≤ 1)
    (hrel : a.relations = { ids := [], names := [], subj_ids := [], obj_ids := [] }) :
    create_pred_cls_json predicates a = a := by
  have hts : relTriples a.relations = [] := by
    rw [hrel]
    rfl
  have hinit : initPairs a.objects.ids.length = [] := by
    rw [List.eq_nil_iff_forall_not_mem]
    rintro ⟨s, o⟩ hmem
    rcases (mem_initPairs _ s o).mp hmem with ⟨hs, ho, hne⟩
    omega
  have hflat : flatQuads a.objects.ids.length predicates.length
      (relTriples a.relations) = [] := by
    unfold flatQuads pairKeys
    rw [hts, List.foldl_nil, hinit]
    rfl
  simp only [create_pred_cls_json]
  rw [if_pos hflat]

/-- A concrete one-object image with no relations. -/
def loneAnno : Anno :=
  { filename := "im2.jpg"
    split_id := 1
    objects := { ids := [4], names := ["tree"], boxes := [⟨0, 5, 0, 5⟩] }
    relations := { ids := [], names := [], subj_ids := [], obj_ids := [] } }

/-- Witness for `create_pred_cls_frame` on `loneAnno`. -/
theorem create_pred_cls_frame_witness :
    (loneAnno.objects.ids.length ≤ 1 ∧
      loneAnno.relations = { ids := [], names := [], subj_ids := [], obj_ids := [] }) ∧
    create_pred_cls_json ["on", "__background__"] loneAnno = loneAnno :=
  ⟨⟨by decide, rfl⟩,
    create_pred_cls_frame ["on", "__background__"] loneAnno (by decide) rfl⟩

/-! ## Normalizer (`_transform_annotations`)

Per image, the code builds `sorted(list(set(subject pairs) | set(object
pairs)), key=lambda t: t[0][2] + t[0][3])` and indexes it.  Python's `set`
has no specified iteration order (string hashing varies between processes),
so the model takes the enumeration produced by `list(set(...))` as an
explicit parameter: any duplicate-free listing of the union.  Python's
`sorted` is a stable sort on the key `x_min + x_max`; a stable insertion
sort (each element inserted in front of later elements with an equal key)
produces the identical output. -/

/-- One raw relationship record. -/
structure RawRel where
  subject : String
  subject_box : Box
  predicate : String
  object : String
  object_box : Box
deriving DecidableEq

/-- One raw per-image record consumed by the Normalizer. -/
structure RawAnno where
  filename : String
  split_id : ℕ
  height : ℕ
  width : ℕ
  relationships : List RawRel
deriving DecidableEq

/-- All `(box, class-name)` pairs mentioned as subject or object, with
multiplicity (the union set is a duplicate-free listing of these). -/
def objTuples (rels : List RawRel) : List (Box × String) :=
  (rels.map fun r => (r.subject_box, r.subject)) ++
    (rels.map fun r => (r.object_box, r.object))

/-- `e` is a possible result of `list(set(subject pairs) | set(object
pairs))`: duplicate-free and containing exactly the mentioned pairs. -/
def validEnum (rels : List RawRel) (e : List (Box × String)) : Prop :=
  e.Nodup ∧ (∀ x ∈ e, x ∈ objTuples rels) ∧ (∀ x ∈ objTuples rels, x ∈ e)

instance validEnum_decidable (rels : List RawRel) (e : List (Box × String)) :
    Decidable (validEnum rels e) :=
  inferInstanceAs (Decidable (e.Nodup ∧ (∀ x ∈ e, x ∈ objTuples rels) ∧
    (∀ x ∈ objTuples rels, x ∈ e)))

/-- The sort key `lambda t: t[0][2] + t[0][3]`, i.e. `x_min + x_max`. -/
def sortKey (t : Box × String) : ℤ := t.1.xmin + t.1.xmax

/-- Non-strict comparison on sort keys (what the stable sort orders by). -/
def keyLe (x y : Box × String) : Prop := sortKey x ≤ sortKey y

instance keyLe_decidable : DecidableRel keyLe :=
  fun x y => inferInstanceAs (Decidable (sortKey x ≤ sortKey y))

instance keyLe_total : IsTotal (Box × String) keyLe :=
  ⟨fun a b => le_total (sortKey a) (sortKey b)⟩

instance keyLe_trans : IsTrans (Box × String) keyLe :=
  ⟨fun _ _ _ hab hbc => le_trans hab hbc⟩

/-- The sorted object listing (Python's stable `sorted` on `sortKey`,
modelled by the stable insertion sort). -/
def sortedObjs (e : List (Box × String)) : List (Box × String) :=
  List.insertionSort keyLe e

/-- Rank of a pair in a listing (the dict built by `enumerate` maps each
pair to its position; lookup of a present pair returns that position). -/
abbrev rankIn (l : List (Box × String)) (p : Box × String) : ℕ :=
  @List.indexOf (Box × String) instBEqOfDecidableEq p l

/-- The `objects` sub-record produced by the Normalizer. -/
structure TObjects where
  names : List String
  boxes : List Box
deriving DecidableEq

/-- The `relations` sub-record produced by the Normalizer (ids not yet
assigned). -/
structure TRelations where
  names : List String
  subj_ids : List ℕ
  obj_ids : List ℕ
deriving DecidableEq

/-- One output record of the Normalizer. -/
structure TAnno where
  filename : String
  split_id : ℕ
  height : ℕ
  width : ℕ
  objects : TObjects
  relations : TRelations
deriving DecidableEq

/-- `_transform_annotations` on one image, given the set enumeration `e`:
the object dict maps each pair to its rank in the sorted listing, object
names/boxes are read back in rank order, and each relationship's subject and
object are rewritten to their ranks. -/
def transformAnnos (a : RawAnno) (e : List (Box × String)) : TAnno :=
  { filename := a.filename
    split_id := a.split_id
    height := a.height
    width := a.width
    objects := { names := (sortedObjs e).map fun p => p.2
                 boxes := (sortedObjs e).map fun p => p.1 }
    relations :=
      { names := a.relationships.map fun r => r.predicate
        subj_ids := a.relationships.map fun r =>
          rankIn (sortedObjs e) (r.subject_box, r.subject)
        obj_ids := a.relationships.map fun r =>
          rankIn (sortedObjs e) (r.object_box, r.object) } }

/-- `update_labels` on one image: numeric ids are the positions of the names
in the global vocabularies. -/
def update_labels_anno (predicates objects : List String) (t : TAnno) : Anno :=
  { filename := t.filename
    split_id := t.split_id
    objects := { ids := t.objects.names.map fun nm => objects.indexOf nm
                 names := t.objects.names
                 boxes := t.objects.boxes }
    relations := { ids := t.relations.names.map fun nm => predicates.indexOf nm
                   names := t.relations.names
                   subj_ids := t.relations.subj_ids
                   obj_ids := t.relations.obj_ids } }

/-- Default values used to state array lookups. -/
def dfltBox : Box := ⟨0, 0, 0, 0⟩

/-- A default raw relationship (used only to state indexed lookups). -/
def dfltRawRel : RawRel := ⟨"", dfltBox, "", "", dfltBox⟩

/-- Looking up a mentioned pair in the sorted object listing: the rank is in
range and names/boxes at that rank recover the pair. -/
theorem sortedObjs_lookup (rels : List RawRel) (e : List (Box × String))
    (he : validEnum rels e) (p : Box × String) (hp : p ∈ objTuples rels) :
    rankIn (sortedObjs e) p < (sortedObjs e).length ∧
    ((sortedObjs e).map fun q => q.2).getD (rankIn (sortedObjs e) p) "" = p.2 ∧
    ((sortedObjs e).map fun q => q.1).getD (rankIn (sortedObjs e) p) dfltBox = p.1 := by
  have hmem : p ∈ sortedObjs e :=
    ((List.perm_insertionSort keyLe e).mem_iff).mpr (he.2.2 p hp)
  have hidx : rankIn (sortedObjs e) p < (sortedObjs e).length :=
    List.indexOf_lt_length.mpr hmem
  have hget : (sortedObjs e)[rankIn (sortedObjs e) p] = p := by
    have := List.indexOf_get hidx
    rwa [List.get_eq_getElem] at this
  refine ⟨hidx, ?_, ?_⟩
  · rw [List.getD_eq_getElem _ _ (by simpa using hidx), List.getElem_map, hget]
  · rw [List.getD_eq_getElem _ _ (by simpa using hidx), List.getElem_map, hget]

/-- C7: for every image and every duplicate-free enumeration of the union of
mentioned `(box, class-name)` pairs, the Normalizer's Object Set is exactly
that deduplicated union sorted by ascending `x_min + x_max`, and every
relationship's subject and object references are the rank of its pair in the
sorted order: the rank is in range and the object names/boxes at that rank
are exactly the relationship's own box and class. -/
theorem transformAnnos_spec (a : RawAnno) (e : List (Box × String))
    (he : validEnum a.relationships e) :
    ((sortedObjs e).Nodup ∧
      (∀ x ∈ sortedObjs e, x ∈ objTuples a.relationships) ∧
      (∀ x ∈ objTuples a.relationships, x ∈ sortedObjs e) ∧
      List.Sorted keyLe (sortedObjs e)) ∧
    (∀ i : ℕ, i < a.relationships.length →
      ((transformAnnos a e).relations.subj_ids.getD i 0 < (sortedObjs e).length ∧
        (transformAnnos a e).objects.names.getD
            ((transformAnnos a e).relations.subj_ids.getD i 0) "" =
          (a.relationships.getD i dfltRawRel).subject ∧
        (transformAnnos a e).objects.boxes.getD
            ((transformAnnos a e).relations.subj_ids.getD i 0) dfltBox =
          (a.relationships.getD i dfltRawRel).subject_box) ∧
      ((transformAnnos a e).relations.obj_ids.getD i 0 < (sortedObjs e).length ∧
        (transformAnnos a e).objects.names.getD
            ((transformAnnos a e).relations.obj_ids.getD i 0) "" =
          (a.relationships.getD i dfltRawRel).object ∧
        (transformAnnos a e).objects.boxes.getD
            ((transformAnnos a e).relations.obj_ids.getD i 0) dfltBox =
          (a.relationships.getD i dfltRawRel).object_box)) := by
  have hperm := List.perm_insertionSort keyLe e
  refine ⟨⟨hperm.nodup_iff.mpr he.1,
      fun x hx => he.2.1 x (hperm.mem_iff.mp hx),
      fun x hx => hperm.mem_iff.mpr (he.2.2 x hx),
      List.sorted_insertionSort keyLe e⟩, ?_⟩
  intro i hi
  have hrel : a.relationships.getD i dfltRawRel = a.relationships[i] :=
    List.getD_eq_getElem _ _ hi
  constructor
  · have hsub : (transformAnnos a e).relations.subj_ids.getD i 0 =
        rankIn (sortedObjs e) ((a.relationships.getD i dfltRawRel).subject_box,
          (a.relationships.getD i dfltRawRel).subject) := by
      show (a.relationships.map fun r =>
        rankIn (sortedObjs e) (r.subject_box, r.subject)).getD i 0 = _
      rw [List.getD_eq_getElem _ _ (by simpa using hi), List.getElem_map, hrel]
    have hp : ((a.relationships.getD i dfltRawRel).subject_box,
        (a.relationships.getD i dfltRawRel).subject) ∈ objTuples a.relationships := by
      apply List.mem_append_left
      apply List.mem_map.mpr
      exact ⟨a.relationships.getD i dfltRawRel, by rw [hrel]; exact List.getElem_mem hi, rfl⟩
    have hlook := sortedObjs_lookup a.relationships e he _ hp
    rw [hsub]
    exact hlook
  · have hob : (transformAnnos a e).relations.obj_ids.getD i 0 =
        rankIn (sortedObjs e) ((a.relationships.getD i dfltRawRel).object_box,
          (a.relationships.getD i dfltRawRel).object) := by
      show (a.relationships.map fun r =>
        rankIn (sortedObjs e) (r.object_box, r.object)).getD i 0 = _
      rw [List.getD_eq_getElem _ _ (by simpa using hi), List.getElem_map, hrel]
    have hp : ((a.relationships.getD i dfltRawRel).object_box,
        (a.relationships.getD i dfltRawRel).object) ∈ objTuples a.relationships := by
      apply List.mem_append_right
      apply List.mem_map.mpr
      exact ⟨a.relationships.getD i dfltRawRel, by rw [hrel]; exact List.getElem_mem hi, rfl⟩
    have hlook := sortedObjs_lookup a.relationships e he _ hp
    rw [hob]
    exact hlook

/-- A concrete image: two objects with distinct sort keys, one relation. -/
def wBoxA : Box := ⟨0, 1, 0, 1⟩

/-- Second concrete box, sort key 5. -/
def wBoxB : Box := ⟨0, 1, 2, 3⟩

/-- Concrete raw image with objects of distinct sort keys. -/
def wAnno : RawAnno :=
  { filename := "w.jpg", split_id := 0, height := 10, width := 10,
    relationships := [⟨"a", wBoxA, "p", "b", wBoxB⟩] }

/-- One enumeration of `wAnno`'s object pairs. -/
def wEnumA : List (Box × String) := [(wBoxB, "b"), (wBoxA, "a")]

/-- The other enumeration of `wAnno`'s object pairs. -/
def wEnumB : List (Box × String) := [(wBoxA, "a"), (wBoxB, "b")]

/-- Witness for `transformAnnos_spec` on `wAnno` with enumeration `wEnumA`. -/
theorem transformAnnos_spec_witness :
    validEnum wAnno.relationships wEnumA ∧
    (((sortedObjs wEnumA).Nodup ∧
      (∀ x ∈ sortedObjs wEnumA, x ∈ objTuples wAnno.relationships) ∧
      (∀ x ∈ objTuples wAnno.relationships, x ∈ sortedObjs wEnumA) ∧
      List.Sorted keyLe (sortedObjs wEnumA)) ∧
    (∀ i : ℕ, i < wAnno.relationships.length →
      ((transformAnnos wAnno wEnumA).relations.subj_ids.getD i 0 <
          (sortedObjs wEnumA).length ∧
        (transformAnnos wAnno wEnumA).objects.names.getD
            ((transformAnnos wAnno wEnumA).relations.subj_ids.getD i 0) "" =
          (wAnno.relationships.getD i dfltRawRel).subject ∧
        (transformAnnos wAnno wEnumA).objects.boxes.getD
            ((transformAnnos wAnno wEnumA).relations.subj_ids.getD i 0) dfltBox =
          (wAnno.relationships.getD i dfltRawRel).subject_box) ∧
      ((transformAnnos wAnno wEnumA).relations.obj_ids.getD i 0 <
          (sortedObjs wEnumA).length ∧
        (transformAnnos wAnno wEnumA).objects.names.getD
            ((transformAnnos wAnno wEnumA).relations.obj_ids.getD i 0) "" =
          (wAnno.relationships.getD i dfltRawRel).object ∧
        (transformAnnos wAnno wEnumA).objects.boxes.getD
            ((transformAnnos wAnno wEnumA).relations.obj_ids.getD i 0) dfltBox =
          (wAnno.relationships.getD i dfltRawRel).object_box))) :=
  ⟨by decide, transformAnnos_spec wAnno wEnumA (by decide)⟩

/-- Sort-key comparison strictified by equality (used to show two stable
sorts of the same set agree when keys are distinct). -/
def keyOrder (x y : Box × String) : Prop := sortKey x < sortKey y ∨ x = y

instance keyOrder_antisymm : IsAntisymm (Box × String) keyOrder := ⟨by
  intro a b hab hba
  rcases hab with hlt | heq
  · rcases hba with hlt2 | heq2
    · exact absurd hlt2 (not_lt.mpr (le_of_lt hlt))
    · exact heq2.symm
  · exact heq⟩

/-- Whenever all mentioned pairs have pairwise distinct sort keys, the
sorted object listing does not depend on the set-enumeration order. -/
theorem sortedObjs_unique (rels : List RawRel) (e1 e2 : List (Box × String))
    (h1 : validEnum rels e1) (h2 : validEnum rels e2)
    (hinj : ∀ x ∈ objTuples rels, ∀ y ∈ objTuples rels,
      sortKey x = sortKey y → x = y) :
    sortedObjs e1 = sortedObjs e2 := by
  have he12 : e1.Perm e2 :=
    (List.perm_ext_iff_of_nodup h1.1 h2.1).mpr fun x =>
      ⟨fun hx => h2.2.2 x (h1.2.1 x hx), fun hx => h1.2.2 x (h2.2.1 x hx)⟩
  have hperm : (sortedObjs e1).Perm (sortedObjs e2) :=
    (List.perm_insertionSort keyLe e1).trans
      (he12.trans (List.perm_insertionSort keyLe e2).symm)
  have hsorted : ∀ e : List (Box × String), validEnum rels e →
      List.Sorted keyOrder (sortedObjs e) := by
    intro e he
    have hs : List.Sorted keyLe (sortedObjs e) := List.sorted_insertionSort keyLe e
    have hn : (sortedObjs e).Nodup :=
      ((List.perm_insertionSort keyLe e).nodup_iff).mpr he.1
    have hcomb := List.Pairwise.and hs hn
    apply hcomb.imp_of_mem
    intro x y hx hy hxy
    rcases hxy with ⟨hle, hne⟩
    by_cases heq : sortKey x = sortKey y
    · exact absurd (hinj x (he.2.1 x ((List.perm_insertionSort keyLe e).mem_iff.mp hx))
        y (he.2.1 y ((List.perm_insertionSort keyLe e).mem_iff.mp hy)) heq) hne
    · exact Or.inl (lt_of_le_of_ne hle heq)
  exact List.eq_of_perm_of_sorted hperm (hsorted e1 h1) (hsorted e2 h2)

/-- C9 (amended): when all mentioned `(box, class)` pairs of the image have
pairwise distinct `x_min + x_max` sort keys, Normalizer + id assignment +
Pair Completion yield identical results for any two enumerations of the
object set — i.e. the pipeline prefix is deterministic except for sort-key
ties, whose order comes from Python's unordered `set` iteration. -/
theorem pipeline_prefix_deterministic (a : RawAnno) (preds objs : List String)
    (e1 e2 : List (Box × String))
    (h1 : validEnum a.relationships e1) (h2 : validEnum a.relationships e2)
    (hinj : ∀ x ∈ objTuples a.relationships, ∀ y ∈ objTuples a.relationships,
      sortKey x = sortKey y → x = y) :
    transformAnnos a e1 = transformAnnos a e2 ∧
    create_pred_cls_json preds (update_labels_anno preds objs
        (transformAnnos a e1)) =
      create_pred_cls_json preds (update_labels_anno preds objs
        (transformAnnos a e2)) := by
  have hso := sortedObjs_unique a.relationships e1 e2 h1 h2 hinj
  have ht : transformAnnos a e1 = transformAnnos a e2 := by
    unfold transformAnnos
    rw [hso]
  exact ⟨ht, by rw [ht]⟩

/-- Witness for `pipeline_prefix_deterministic` on `wAnno` with the two
enumerations `wEnumA`, `wEnumB`. -/
theorem pipeline_prefix_deterministic_witness :
    (validEnum wAnno.relationships wEnumA ∧ validEnum wAnno.relationships wEnumB ∧
      (∀ x ∈ objTuples wAnno.relationships, ∀ y ∈ objTuples wAnno.relationships,
        sortKey x = sortKey y → x = y)) ∧
    (transformAnnos wAnno wEnumA = transformAnnos wAnno wEnumB ∧
      create_pred_cls_json ["p", "__background__"]
          (update_labels_anno ["p", "__background__"] ["a", "b"]
            (transformAnnos wAnno wEnumA)) =
        create_pred_cls_json ["p", "__background__"]
          (update_labels_anno ["p", "__background__"] ["a", "b"]
            (transformAnnos wAnno wEnumB))) :=
  ⟨⟨by decide, by decide, by decide⟩,
    pipeline_prefix_deterministic wAnno ["p", "__background__"] ["a", "b"]
      wEnumA wEnumB (by decide) (by decide) (by decide)⟩

/-- A box used to build a sort-key tie: two objects share this box. -/
def tieBox : Box := ⟨0, 2, 0, 1⟩

/-- A raw image whose two objects (same box, classes `a` and `b`) have equal
sort keys. -/
def tieAnno : RawAnno :=
  { filename := "t.jpg", split_id := 0, height := 10, width := 10,
    relationships := [⟨"a", tieBox, "p", "b", tieBox⟩] }

/-- One possible `set` iteration order for `tieAnno`. -/
def tieEnumA : List (Box × String) := [(tieBox, "a"), (tieBox, "b")]

/-- The other possible `set` iteration order for `tieAnno`. -/
def tieEnumB : List (Box × String) := [(tieBox, "b"), (tieBox, "a")]

/-- Counterexample to C9 as stated: on a sort-key tie the Normalizer's
output (and hence the pair-completed output) depends on the `set`
enumeration order, which Python does not fix across runs (string hash
randomization): the two valid enumerations yield different Object Set
orderings and different flattened relation arrays. -/
theorem pipeline_prefix_tie_nondeterministic :
    validEnum tieAnno.relationships tieEnumA ∧
    validEnum tieAnno.relationships tieEnumB ∧
    transformAnnos tieAnno tieEnumA ≠ transformAnnos tieAnno tieEnumB ∧
    create_pred_cls_json ["p", "__background__"]
        (update_labels_anno ["p", "__background__"] ["a", "b"]
          (transformAnnos tieAnno tieEnumA)) ≠
      create_pred_cls_json ["p", "__background__"]
        (update_labels_anno ["p", "__background__"] ["a", "b"]
          (transformAnnos tieAnno tieEnumB)) := by
  refine ⟨?_, ?_, ?_, ?_⟩ <;> decide

/-! ## Negative miner (`save_negative_json`)

For each image the code walks all relation entries `n`; when entry `n`'s
predicate name is in `r1_preds` it appends `ids[n]` to the negative list of
every entry `r` with a different subject instance, subject-box overlap with
`n`'s subject below `0.9`, a different predicate name, and the same object
instance (rule 2 is the mirror image over objects, tried only when the name
is not in `r1_preds`). -/

/-- The comparison `compute_overlap(b0, b1) < q`.  In the `none` case the
Python code raises `ZeroDivisionError` before any comparison happens; the
theorems below assume positive box areas, under which that case is
unreachable. -/
def overlapLt (b0 b1 : Box) (q : ℚ) : Bool :=
  match compute_overlap b0 b1 with
  | none => false
  | some v => decide (v < q)

/-- The four-clause rule-1 test `rule_applies` for source entry `n` and
target entry `r` (`this_subj_id != subj_id`, overlap `< 0.9`, different
name, same object instance). -/
def rel1Cond (a : Anno) (n r : ℕ) : Bool :=
  decide (a.relations.subj_ids.getD r 0 ≠ a.relations.subj_ids.getD n 0) &&
  overlapLt (a.objects.boxes.getD (a.relations.subj_ids.getD r 0) dfltBox)
    (a.objects.boxes.getD (a.relations.subj_ids.getD n 0) dfltBox) (9 / 10) &&
  decide (a.relations.names.getD r "" ≠ a.relations.names.getD n "") &&
  decide (a.relations.obj_ids.getD r 0 = a.relations.obj_ids.getD n 0)

/-- The four-clause rule-2 test for source entry `n` and target entry `r`
(same subject instance, different name, different object instance, object
overlap `< 0.9`). -/
def rel2Cond (a : Anno) (n r : ℕ) : Bool :=
  decide (a.relations.subj_ids.getD r 0 = a.relations.subj_ids.getD n 0) &&
  decide (a.relations.names.getD r "" ≠ a.relations.names.getD n "") &&
  decide (a.relations.obj_ids.getD r 0 ≠ a.relations.obj_ids.getD n 0) &&
  overlapLt (a.objects.boxes.getD (a.relations.obj_ids.getD r 0) dfltBox)
    (a.objects.boxes.getD (a.relations.obj_ids.getD n 0) dfltBox) (9 / 10)

/-- Whether source entry `n` appends its predicate id to target entry `r`'s
negative list: the `if name in r1_preds / elif name in r2_preds` dispatch. -/
def negSource (a : Anno) (r1 r2 : List String) (n r : ℕ) : Bool :=
  if a.relations.names.getD n "" ∈ r1 then rel1Cond a n r
  else if a.relations.names.getD n "" ∈ r2 then rel2Cond a n r
  else false

/-- The negative list `neg_ids[r]` of one relation entry: predicate ids of
the source entries that fire on `r`, in source order. -/
def negListFor (a : Anno) (r1 r2 : List String) (r : ℕ) : List ℕ :=
  (((List.range a.relations.names.length).filter fun n =>
    negSource a r1 r2 n r).map fun n => a.relations.ids.getD n 0)

/-- The per-image value stored by `save_negative_json`: one negative list
per relation entry. -/
def save_negative_lists (a : Anno) (r1 r2 : List String) : List (List ℕ) :=
  (List.range a.relations.ids.length).map fun r => negListFor a r1 r2 r

/-- A positive-area box fully overlaps itself, so the `< 0.9` test fails. -/
theorem overlapLt_self_false (b : Box) (hpos : 0 < compute_area b) :
    overlapLt b b (9 / 10) = false := by
  have hib : intersectionBox b b = b := by
    unfold intersectionBox
    rw [max_self, min_self, max_self, min_self]
  have hu : unionArea b b = compute_area b := by
    unfold unionArea
    rw [hib]
    ring
  have hco : compute_overlap b b = some 1 := by
    unfold compute_overlap
    rw [if_neg (by rw [hu]; exact ne_of_gt hpos)]
    congr 1
    rw [hib, hu]
    exact div_self (by exact_mod_cast ne_of_gt hpos)
  unfold overlapLt
  rw [hco]
  show decide ((1 : ℚ) < 9 / 10) = false
  rw [decide_eq_false_iff_not]
  norm_num

/-- C8: for every relation entry `n` whose predicate name is in the rule-1
set and whose subject box has positive area, entry `n`'s predicate id is
appended to the negative list of every entry `r` with the same object
instance, a different predicate name, and subject-box overlap with `n`'s
subject below `0.9` (the code's extra `this_subj_id != subj_id` test follows
from the overlap bound, since an identical subject instance overlaps itself
fully); and when that overlap is at least `0.9` (`overlapLt` false), entry
`n` records no negative for entry `r` at all. -/
theorem save_negative_rule1 (a : Anno) (r1 r2 : List String) (n r : ℕ)
    (hn : n < a.relations.names.length)
    (hname : a.relations.names.getD n "" ∈ r1)
    (hposn : 0 < compute_area
      (a.objects.boxes.getD (a.relations.subj_ids.getD n 0) dfltBox)) :
    ((a.relations.obj_ids.getD r 0 = a.relations.obj_ids.getD n 0 ∧
      a.relations.names.getD r "" ≠ a.relations.names.getD n "" ∧
      overlapLt (a.objects.boxes.getD (a.relations.subj_ids.getD r 0) dfltBox)
        (a.objects.boxes.getD (a.relations.subj_ids.getD n 0) dfltBox)
        (9 / 10) = true) →
      a.relations.ids.getD n 0 ∈ negListFor a r1 r2 r) ∧
    (overlapLt (a.objects.boxes.getD (a.relations.subj_ids.getD r 0) dfltBox)
        (a.objects.boxes.getD (a.relations.subj_ids.getD n 0) dfltBox)
        (9 / 10) = false →
      negSource a r1 r2 n r = false) := by
  constructor
  · rintro ⟨hobj, hnames, hov⟩
    have hneq : a.relations.subj_ids.getD r 0 ≠ a.relations.subj_ids.getD n 0 := by
      intro heq
      rw [heq, overlapLt_self_false _ hposn] at hov
      cases hov
    have h1 : rel1Cond a n r = true := by
      unfold rel1Cond
      refine (Bool.and_eq_true _ _).mpr ⟨(Bool.and_eq_true _ _).mpr
        ⟨(Bool.and_eq_true _ _).mpr ⟨?_, ?_⟩, ?_⟩, ?_⟩
      · exact decide_eq_true hneq
      · exact hov
      · exact decide_eq_true hnames
      · exact decide_eq_true hobj
    apply List.mem_map.mpr
    refine ⟨n, ?_, rfl⟩
    apply List.mem_filter.mpr
    refine ⟨List.mem_range.mpr hn, ?_⟩
    unfold negSource
    rw [if_pos hname]
    exact h1
  · intro hov
    unfold negSource
    rw [if_pos hname]
    unfold rel1Cond
    rw [hov]
    simp

/-- A concrete image for the rule-1 miner: subject `0` rides horse `2`,
subject `1` (disjoint box) is near the same horse. -/
def mineAnno : Anno :=
  { filename := "m.jpg"
    split_id := 0
    objects := { ids := [0, 0, 1]
                 names := ["person", "person", "horse"]
                 boxes := [⟨0, 2, 0, 2⟩, ⟨10, 12, 10, 12⟩, ⟨5, 6, 5, 6⟩] }
    relations := { ids := [2, 3], names := ["riding", "near"],
                   subj_ids := [0, 1], obj_ids := [2, 2] } }

/-- Witness for `save_negative_rule1` on `mineAnno` with `n = 0`, `r = 1`,
rule-1 set `["riding"]`. -/
theorem save_negative_rule1_witness :
    (0 < mineAnno.relations.names.length ∧
      mineAnno.relations.names.getD 0 "" ∈ ["riding"] ∧
      0 < compute_area (mineAnno.objects.boxes.getD
        (mineAnno.relations.subj_ids.getD 0 0) dfltBox)) ∧
    (((mineAnno.relations.obj_ids.getD 1 0 = mineAnno.relations.obj_ids.getD 0 0 ∧
      mineAnno.relations.names.getD 1 "" ≠ mineAnno.relations.names.getD 0 "" ∧
      overlapLt (mineAnno.objects.boxes.getD
          (mineAnno.relations.subj_ids.getD 1 0) dfltBox)
        (mineAnno.objects.boxes.getD
          (mineAnno.relations.subj_ids.getD 0 0) dfltBox) (9 / 10) = true) →
      mineAnno.relations.ids.getD 0 0 ∈ negListFor mineAnno ["riding"] [] 1) ∧
    (overlapLt (mineAnno.objects.boxes.getD
          (mineAnno.relations.subj_ids.getD 1 0) dfltBox)
        (mineAnno.objects.boxes.getD
          (mineAnno.relations.subj_ids.getD 0 0) dfltBox) (9 / 10) = false →
      negSource mineAnno ["riding"] [] 0 1 = false)) :=
  ⟨⟨by decide, by decide, by decide⟩,
    save_negative_rule1 mineAnno ["riding"] [] 0 1 (by decide) (by decide) (by decide)⟩
